import Mathlib

/-!
Verification of the flag-pattern search engine of `webwizard.py`
(function `parse_for_flag`, lines 62-107).

The function builds three regular expressions from a crib string and scans a
text with Python's `re.findall`:
  * plaintext pattern: each crib character followed by `.{0,2}` (a greedy gap
    of up to two arbitrary non-newline characters), then `\{.*?\}` (a brace
    pair around a lazy non-newline body);
  * rot13 pattern: the ROT13 transform of the plaintext pattern string, which
    shifts exactly the crib letters and no metacharacter, so it is the
    plaintext pattern of the ROT13-shifted crib;
  * base64 pattern: the first three characters of the base64 encoding of the
    crib, then the character class of `+`, backslash, letters and digits (one
    or more, greedy), then up to two `=`, then one whitespace character.

The regular expressions are embedded as syntax trees with a backtracking
matcher `run` that returns candidate match ends in Python's backtracking
priority order, and `findall` reproduces `re.findall`: scan left to right,
take the first (highest-priority) match at the leftmost matching position,
continue after it, never overlapping.  The embedding of the pattern strings
as trees is faithful for cribs whose characters are regex-literal
(letters, digits and the like); the theorems below instantiate such cribs.

Python library functions used by the source (`str.strip`, `codecs` rot-13,
`base64.b64encode`/`b64decode` in default lenient mode, UTF-8 encode and
strict decode) are modelled explicitly below.  A base64 or UTF-8 decode
failure in the source raises an uncaught exception that aborts the whole
call; the embedding returns `none` for that outcome.
-/

namespace WebWizard

/-- Syntax trees for the regex fragment the source can build: single-character
classes, concatenation, bounded greedy/lazy repetition, unbounded greedy/lazy
repetition, and alternation (which arises when a crib character is the
metacharacter `|`, see `plainRE_xAltY`). -/
inductive RE where
  | eps
  | cls (p : Char → Bool)
  | seq (a b : RE)
  | rep (a : RE) (lo hi : Nat) (greedy : Bool)
  | star (a : RE) (greedy : Bool)
  | alt (a b : RE)

/-- Backtracking ends for a bounded repetition `a{lo,hi}` of the node whose
ends are produced by `step`, in priority order (longer first when greedy). -/
def repRun (step : Nat → List Nat) (g : Bool) : Nat → Nat → Nat → List Nat
  | lo, 0, i => if lo = 0 then [i] else []
  | lo, hi + 1, i =>
    let more := (step i).flatMap fun j => repRun step g (lo - 1) hi j
    if lo = 0 then (if g then more ++ [i] else i :: more) else more

/-- Backtracking ends for an unbounded repetition, fueled; iterations that do
not advance the position are dropped, so fuel `≥` text length is exact. -/
def starRun (step : Nat → List Nat) (g : Bool) : Nat → Nat → List Nat
  | 0, i => [i]
  | f + 1, i =>
    let more := (step i).flatMap fun j => if i < j then starRun step g f j else []
    if g then more ++ [i] else i :: more

/-- All candidate ends of a match of `re` in `s` starting at position `i`, in
Python's backtracking priority order: the head is the end `re.match` picks. -/
def run (s : List Char) : RE → Nat → List Nat
  | .eps, i => [i]
  | .cls p, i =>
    match s[i]? with
    | some c => if p c then [i + 1] else []
    | none => []
  | .seq a b, i => (run s a i).flatMap fun j => run s b j
  | .rep a lo hi g, i => repRun (fun j => run s a j) g lo hi i
  | .star a g, i => starRun (fun j => run s a j) g (s.length + 1) i
  | .alt a b, i => run s a i ++ run s b i

/-- Python `re.findall` scanning: at each position try a match; on success
emit the span and resume at its end (or one past it for an empty match). -/
def scanAux (re : RE) (s : List Char) : Nat → Nat → List (Nat × Nat)
  | 0, _ => []
  | f + 1, i =>
    if i > s.length then []
    else
      match run s re i with
      | [] => scanAux re s f (i + 1)
      | e :: _ => (i, e) :: scanAux re s f (max e (i + 1))

/-- The spans `re.findall` reports, leftmost first, non-overlapping. -/
def findallPairs (re : RE) (s : List Char) : List (Nat × Nat) :=
  scanAux re s (s.length + 2) 0

/-- The segment of `s` from position `i` (inclusive) to `e` (exclusive). -/
def slice (s : List Char) (i e : Nat) : List Char :=
  (s.drop i).take (e - i)

/-- The matched substrings `re.findall` returns (the source's patterns have
no capture groups, so `findall` yields whole matches). -/
def findall (re : RE) (s : List Char) : List (List Char) :=
  (findallPairs re s).map fun pr => slice s pr.1 pr.2

/-- Words accepted by zero or more copies of a word predicate, each copy
nonempty (matching `starRun`, which drops non-advancing iterations). -/
inductive StarAcc (Q : List Char → Prop) : List Char → Prop where
  | nil : StarAcc Q []
  | cons (l1 l2 : List Char) : Q l1 → l1 ≠ [] → StarAcc Q l2 → StarAcc Q (l1 ++ l2)

/-- Words accepted by between `lo` and `hi` copies of a word predicate. -/
inductive RepAcc (Q : List Char → Prop) : Nat → Nat → List Char → Prop where
  | zero (lo hi : Nat) : lo = 0 → RepAcc Q lo hi []
  | succ (lo hi : Nat) (l1 l2 : List Char) : 0 < hi → Q l1 →
      RepAcc Q (lo - 1) (hi - 1) l2 → RepAcc Q lo hi (l1 ++ l2)

/-- Declarative acceptance: the words a regex matches, independent of
backtracking priority. -/
def Accepts : RE → List Char → Prop
  | .eps, l => l = []
  | .cls p, l => ∃ c, l = [c] ∧ p c = true
  | .seq a b, l => ∃ l1 l2, l = l1 ++ l2 ∧ Accepts a l1 ∧ Accepts b l2
  | .rep a lo hi _, l => RepAcc (Accepts a) lo hi l
  | .star a _, l => StarAcc (Accepts a) l
  | .alt a b, l => Accepts a l ∨ Accepts b l

/-- Python's `.` without DOTALL: any character except a newline. -/
def dotC : RE := .cls fun c => c != '\n'

/-- The `.{0,2}` tolerance gap the source emits after every crib character. -/
def gapRE : RE := .rep dotC 0 2 true

/-- The trailing `\{.*?\}` of the plaintext pattern: a literal `{`, a lazy
non-newline body, and a literal `}`. -/
def bodyRE : RE :=
  .seq (.cls fun c => c == '{') (.seq (.star dotC false) (.cls fun c => c == '}'))

/-- The plaintext pattern built from the (stripped) crib: each crib character
is a literal followed by `.{0,2}`, then `\{.*?\}`.  This is the tree form of
the regex string the source concatenates in its loop, and it is faithful
exactly for cribs of regex-literal characters (`pyRegexLiteral`): the source
splices the crib characters into regex text, so a metacharacter in the crib
changes the compiled pattern (`|` introduces an alternation, see
`plainRE_xAltY`) or makes `re.compile` raise at line 75 (`(` leaves an
unterminated group).  Neither path is this tree; every theorem below that
scans with `plainRE` therefore restricts the crib to regex-literal
characters, and the counterexample to C8 hand-compiles the real pattern of a
`|` crib instead. -/
def plainRE : List Char → RE
  | [] => bodyRE
  | c :: cs => .seq (.cls fun x => x == c) (.seq gapRE (plainRE cs))

/-- A character that stands for itself when the source splices it into regex
text: anything but the metacharacters `. ^ $ * + ? { } [ ] \ | ( )` of
Python `re`.  Cribs made of such characters are the domain on which
`plainRE` (and, for the anchor, `b64RE`) is a faithful compilation of the
source's pattern strings. -/
def pyRegexLiteral (c : Char) : Bool :=
  !(c == '.' || c == '^' || c == '$' || c == '*' || c == '+' || c == '?' ||
    c == '{' || c == '}' || c == '[' || c == ']' || c == '\\' || c == '|' ||
    c == '(' || c == ')')

/-- The honest compilation of the pattern string the source builds for the
crib `x|y`: the loop emits `x.{0,2}|.{0,2}y.{0,2}` and the suffix `\{.*?\}`,
giving the regex text `x.{0,2}|.{0,2}y.{0,2}\{.*?\}`, which CPython parses
as the top-level alternation of `x.{0,2}` and `.{0,2}y.{0,2}\{.*?\}` —
the `|` crib character is not a literal, and the first branch has no brace
pair at all. -/
def plainRE_xAltY : RE :=
  .alt (.seq (.cls fun x => x == 'x') gapRE)
    (.seq gapRE (.seq (.cls fun x => x == 'y') (.seq gapRE bodyRE)))

/-- Model of `codecs.encode(-, "rot-13")` on one character: letters are
shifted by 13 inside their case, everything else is unchanged. -/
def rot13Char (c : Char) : Char :=
  if 97 ≤ c.toNat ∧ c.toNat ≤ 122 then Char.ofNat (97 + (c.toNat - 97 + 13) % 26)
  else if 65 ≤ c.toNat ∧ c.toNat ≤ 90 then Char.ofNat (65 + (c.toNat - 65 + 13) % 26)
  else c

/-- Model of Python `crib.strip("{")`: removes `{` from both ends. -/
def pyStrip (cs : List Char) : List Char :=
  ((cs.dropWhile fun c => c == '{').reverse.dropWhile fun c => c == '{').reverse

/-- The base64 alphabet character with the given sextet index. -/
def b64CharOf (i : Nat) : Char :=
  if i < 26 then Char.ofNat (65 + i)
  else if i < 52 then Char.ofNat (97 + (i - 26))
  else if i < 62 then Char.ofNat (48 + (i - 52))
  else if i = 62 then '+' else '/'

/-- Model of `base64.b64encode` on a byte list: 3-byte groups become 4
alphabet characters; a short final group is padded with `=`. -/
def b64encodeBytes : List Nat → List Char
  | [] => []
  | [a] => [b64CharOf (a / 4), b64CharOf (a % 4 * 16), '=', '=']
  | [a, b] => [b64CharOf (a / 4), b64CharOf (a % 4 * 16 + b / 16), b64CharOf (b % 16 * 4), '=']
  | a :: b :: c :: rest =>
    b64CharOf (a / 4) :: b64CharOf (a % 4 * 16 + b / 16) ::
      b64CharOf (b % 16 * 4 + c / 64) :: b64CharOf (c % 64) :: b64encodeBytes rest

/-- The sextet index of a base64 alphabet character. -/
def b64IndexOf (c : Char) : Option Nat :=
  let n := c.toNat
  if 65 ≤ n ∧ n ≤ 90 then some (n - 65)
  else if 97 ≤ n ∧ n ≤ 122 then some (n - 97 + 26)
  else if 48 ≤ n ∧ n ≤ 57 then some (n - 48 + 52)
  else if n = 43 then some 62
  else if n = 47 then some 63
  else none

/-- The character class the source writes for the base64 pattern, literally
`+`, backslash, `A-Z`, `a-z`, `0-9` (its f-string escapes produce a literal
backslash in the class and no `/`). -/
def b64classChar (c : Char) : Bool :=
  let n := c.toNat
  n == 43 || n == 92 || (65 ≤ n && n ≤ 90) || (97 ≤ n && n ≤ 122) || (48 ≤ n && n ≤ 57)

/-- Python `\s` for str patterns: ASCII whitespace plus the Unicode
whitespace code points CPython's matcher accepts. -/
def isPySpace (c : Char) : Bool :=
  let n := c.toNat
  (9 ≤ n && n ≤ 13) || (28 ≤ n && n ≤ 31) || n == 32 || n == 133 || n == 160 ||
    n == 5760 || (8192 ≤ n && n ≤ 8202) || n == 8232 || n == 8233 || n == 8239 ||
    n == 8287 || n == 12288

/-- A sequence of literal characters as a regex. -/
def litRE (cs : List Char) : RE :=
  cs.foldr (fun c acc => .seq (.cls fun x => x == c) acc) .eps

/-- The base64 pattern: the three anchor characters as literals, one or more
class characters (greedy), zero to two `=` (greedy), one whitespace
character.  The anchor is spliced into the f-string at line 79, so this tree
is faithful exactly when the anchor contains no regex metacharacter; anchor
characters come from the base64 alphabet, whose only metacharacter is `+`
(a quantifier, which CPython attaches to the preceding literal — a non-ASCII
crib such as `Cあ` produces the anchor `Q+O` and a different pattern).  The
theorems that scan with `b64RE` therefore require `+`-free anchors. -/
def b64RE (anchor : List Char) : RE :=
  .seq (litRE anchor)
    (.seq (.seq (.cls b64classChar) (.star (.cls b64classChar) true))
      (.seq (.rep (.cls fun c => c == '=') 0 2 true) (.cls isPySpace)))

/-- Sextet indices back to bytes: each 4 sextets give 3 bytes, a final 2 or 3
sextets give 1 or 2 bytes. -/
def b64decQuads : List Nat → List Nat
  | i0 :: i1 :: i2 :: i3 :: rest =>
    (i0 * 4 + i1 / 16) :: (i1 % 16 * 16 + i2 / 4) :: (i2 % 4 * 64 + i3) :: b64decQuads rest
  | [i0, i1, i2] => [i0 * 4 + i1 / 16, i1 % 16 * 16 + i2 / 4]
  | [i0, i1] => [i0 * 4 + i1 / 16]
  | _ => []

/-- Model of `base64.b64decode` in its default lenient mode: characters
outside the alphabet and `=` are discarded, data before the first `=` is
decoded, and the call fails (raises `binascii.Error`) when the data length is
1 mod 4, or is 2 or 3 mod 4 without enough padding characters. -/
def b64decode? (cs : List Char) : Option (List Nat) :=
  let kept := cs.filter fun c => (b64IndexOf c).isSome || c == '='
  let data := kept.takeWhile fun c => c != '='
  let pads := kept.length - data.length
  let idxs := data.filterMap b64IndexOf
  if data.length % 4 = 0 then some (b64decQuads idxs)
  else if data.length % 4 = 2 then (if 2 ≤ pads then some (b64decQuads idxs) else none)
  else if data.length % 4 = 3 then (if 1 ≤ pads then some (b64decQuads idxs) else none)
  else none

/-- UTF-8 encoding of one character (div/mod form of the usual bit masks). -/
def utf8EncodeChar (c : Char) : List Nat :=
  let n := c.toNat
  if n < 128 then [n]
  else if n < 2048 then [192 + n / 64, 128 + n % 64]
  else if n < 65536 then [224 + n / 4096, 128 + n / 64 % 64, 128 + n % 64]
  else [240 + n / 262144, 128 + n / 4096 % 64, 128 + n / 64 % 64, 128 + n % 64]

/-- UTF-8 encoding of a string as bytes, the `bytes(s, "utf-8")` of the
source. -/
def utf8Encode (s : List Char) : List Nat := s.flatMap utf8EncodeChar

/-- Decode a single UTF-8 character from the front of a byte list, returning
the character and the remaining bytes; `none` on malformed input (stray or
missing continuation bytes, overlong forms, surrogates, out-of-range). -/
def utf8DecodeChar? (l : List Nat) : Option (Char × List Nat) :=
  match l with
  | [] => none
  | b :: bs =>
    if b < 128 then some (Char.ofNat b, bs)
    else if b < 194 then none
    else if b < 224 then
      match bs with
      | b2 :: bs' =>
        if 128 ≤ b2 ∧ b2 < 192 then
          some (Char.ofNat ((b - 192) * 64 + (b2 - 128)), bs')
        else none
      | [] => none
    else if b < 240 then
      match bs with
      | b2 :: b3 :: bs' =>
        if (128 ≤ b2 ∧ b2 < 192) ∧ (128 ≤ b3 ∧ b3 < 192) ∧
            (b = 224 → 160 ≤ b2) ∧ (b = 237 → b2 < 160) then
          some (Char.ofNat ((b - 224) * 4096 + (b2 - 128) * 64 + (b3 - 128)), bs')
        else none
      | _ => none
    else if b < 245 then
      match bs with
      | b2 :: b3 :: b4 :: bs' =>
        if (128 ≤ b2 ∧ b2 < 192) ∧ (128 ≤ b3 ∧ b3 < 192) ∧ (128 ≤ b4 ∧ b4 < 192) ∧
            (b = 240 → 144 ≤ b2) ∧ (b = 244 → b2 < 144) then
          some (Char.ofNat ((b - 240) * 262144 + (b2 - 128) * 4096 + (b3 - 128) * 64 + (b4 - 128)),
            bs')
        else none
      | _ => none
    else none

/-- Fueled loop decoding UTF-8 characters one at a time; one unit of fuel per
decoded character, so `l.length` fuel always suffices. -/
def utf8DecodeAux : Nat → List Nat → Option (List Char)
  | _, [] => some []
  | 0, _ :: _ => none
  | fuel + 1, b :: bs =>
    match utf8DecodeChar? (b :: bs) with
    | none => none
    | some (c, rest) => (utf8DecodeAux fuel rest).map fun r => c :: r

/-- Strict UTF-8 decoding, the `.decode()` of the source. -/
def utf8Decode? (l : List Nat) : Option (List Char) := utf8DecodeAux l.length l

/-- The `"plaintext flag: {}".format(x)` tagging of a plaintext match. -/
def fmtPlain (x : List Char) : List Char := "plaintext flag: ".data ++ x

/-- The `"rot13 flag: {}".format(codecs.decode(x, "rot-13"))` tagging of a
rot13 match: the match is ROT13-decoded. -/
def fmtRot13 (x : List Char) : List Char := "rot13 flag: ".data ++ x.map rot13Char

/-- The `"base64 flag: {}".format(base64.b64decode(bytes(x, "utf-8")).decode())`
tagging of a base64 match; `none` when either decode raises. -/
def fmtB64? (x : List Char) : Option (List Char) :=
  (b64decode? x).bind fun bs => (utf8Decode? bs).map fun dec => "base64 flag: ".data ++ dec

/-- `plaintext_pattern.findall(text)` of the source. -/
def plaintextFlags (crib text : List Char) : List (List Char) :=
  findall (plainRE (pyStrip crib)) text

/-- `rot13_pattern.findall(text)` of the source: ROT13 of the pattern string
shifts exactly the crib literals, so the tree is `plainRE` of the shifted
crib. -/
def rot13Flags (crib text : List Char) : List (List Char) :=
  findall (plainRE ((pyStrip crib).map rot13Char)) text

/-- `base64_first_three[0:3]` of the source. -/
def base64Anchor (crib : List Char) : List Char :=
  (b64encodeBytes (utf8Encode (pyStrip crib))).take 3

/-- `base64_pattern.findall(text)` of the source. -/
def base64Flags (crib text : List Char) : List (List Char) :=
  findall (b64RE (base64Anchor crib)) text

/-- `parse_for_flag(crib, text)` of the source: strips `{` from the crib,
scans with the three patterns, tags plaintext matches verbatim, rot13 matches
ROT13-decoded, base64 matches base64-then-UTF-8-decoded, and returns the
three groups concatenated.  A decode failure on any base64 match raises in
the source and aborts the call, modelled by `none`; printing is ignored.
The pattern trees literalize the crib and anchor characters, so this
function models the source on the regex-literal domain only: for a crib with
a metacharacter the source either raises `re.error` at lines 75-78 (e.g.
crib `(`) or compiles a different pattern (e.g. crib `x|y`, whose real
candidates `c8_counterexample` exhibits); no theorem below asserts anything
about `parse_for_flag` on such cribs except the crib-stripping invariance,
which holds in the source for every crib because both calls build
character-identical pattern strings (and so raise identically too). -/
def parse_for_flag (crib text : List Char) : Option (List (List Char)) :=
  let p := plaintextFlags crib text
  let r := rot13Flags crib text
  let b := base64Flags crib text
  (b.mapM fmtB64?).map fun bdec =>
    (if p.isEmpty then [] else p.map fmtPlain) ++
    (if r.isEmpty then [] else r.map fmtRot13) ++
    (if b.isEmpty then [] else bdec)

/-- Modelled from the spec: the crib stripping claim C6 describes, which
removes only the leading `{` characters and keeps every other `{` of the crib
as part of the pattern.  The source instead strips both ends. -/
def lstripBrace (cs : List Char) : List Char := cs.dropWhile fun c => c == '{'

/-- Modelled from the spec: `parse_for_flag` as claim C6 describes it, with
only the leading `{` characters of the crib removed and the remaining crib
characters (including a trailing `{`) used in the patterns. -/
def parse_for_flag_specStrip (crib text : List Char) : Option (List (List Char)) :=
  let crib' := lstripBrace crib
  let p := findall (plainRE crib') text
  let r := findall (plainRE (crib'.map rot13Char)) text
  let b := findall (b64RE ((b64encodeBytes (utf8Encode crib')).take 3)) text
  (b.mapM fmtB64?).map fun bdec =>
    (if p.isEmpty then [] else p.map fmtPlain) ++
    (if r.isEmpty then [] else r.map fmtRot13) ++
    (if b.isEmpty then [] else bdec)

/-- A crib interleaved with one gap after each character, the shape the
tolerance gaps of the plaintext pattern accept. -/
def interleave : List Char → List (List Char) → List Char
  | [], _ => []
  | c :: cs, [] => c :: interleave cs []
  | c :: cs, g :: gs => c :: (g ++ interleave cs gs)

/-- The literal flag text `crib{body}`. -/
def mkFlag (crib body : List Char) : List Char := crib ++ '{' :: body ++ ['}']

/-- The span list of a `findall` call is in scan order: every span is
well-formed, spans do not overlap, and starts strictly increase. -/
def PairsOrdered (ps : List (Nat × Nat)) : Prop :=
  (∀ pr ∈ ps, pr.1 ≤ pr.2) ∧ List.Chain' (fun a b => a.2 ≤ b.1 ∧ a.1 < b.1) ps

/-- An ASCII letter, the regex-literal crib characters the theorems
instantiate. -/
def asciiLetter (c : Char) : Prop :=
  (97 ≤ c.toNat ∧ c.toNat ≤ 122) ∨ (65 ≤ c.toNat ∧ c.toNat ≤ 90)

/-! ### Segment lemmas -/

theorem slice_self (s : List Char) (i : Nat) : slice s i i = [] := by
  simp [slice]

theorem slice_len {s : List Char} {i e : Nat} (h1 : i ≤ e) (h2 : e ≤ s.length) :
    (slice s i e).length = e - i := by
  simp only [slice, List.length_take, List.length_drop]
  omega

theorem slice_getElem? (s : List Char) (i e k : Nat) :
    (slice s i e)[k]? = if k < e - i then s[i + k]? else none := by
  simp only [slice, List.getElem?_take, List.getElem?_drop]

theorem slice_append {s : List Char} {i j e : Nat} (h1 : i ≤ j) (h2 : j ≤ e) :
    slice s i j ++ slice s j e = slice s i e := by
  simp only [slice]
  have h3 : e - i = (j - i) + (e - j) := by omega
  rw [h3, List.take_add, List.drop_drop]
  have h4 : i + (j - i) = j := by omega
  rw [h4]

theorem slice_eq_nil {s : List Char} {i e : Nat} (h : slice s i e = [])
    (h1 : i ≤ e) (h2 : e ≤ s.length) : e = i := by
  have := slice_len h1 h2
  rw [h] at this
  simp at this
  omega

theorem slice_cons {s : List Char} {i e : Nat} {c : Char} {l : List Char}
    (h : slice s i e = c :: l) : s[i]? = some c ∧ slice s (i + 1) e = l ∧ i < e := by
  have h0 : (slice s i e)[0]? = some c := by rw [h]; simp
  rw [slice_getElem? s i e 0] at h0
  by_cases hlt : 0 < e - i
  · rw [if_pos hlt] at h0
    refine ⟨by simpa using h0, ?_, by omega⟩
    have htail : (slice s i e).drop 1 = l := by rw [h]; simp
    have harith : e - i - 1 = e - (i + 1) := by omega
    rw [← htail]
    simp only [slice, List.drop_take, List.drop_drop, harith]
  · rw [if_neg hlt] at h0
    exact absurd h0 (by simp)

theorem slice_split {s : List Char} {i e : Nat} {l1 l2 : List Char}
    (h : slice s i e = l1 ++ l2) (h1 : i ≤ e) (h2 : e ≤ s.length) :
    slice s i (i + l1.length) = l1 ∧ slice s (i + l1.length) e = l2 ∧ i + l1.length ≤ e := by
  have hlen : e - i = l1.length + l2.length := by
    have := slice_len h1 h2
    rw [h] at this
    simp at this
    omega
  have hle : i + l1.length ≤ e := by omega
  constructor
  · have hxx : slice s i (i + l1.length) = (slice s i e).take l1.length := by
      have hmin : l1.length ⊓ (e - i) = l1.length := by omega
      have harith : i + l1.length - i = l1.length := by omega
      simp only [slice, List.take_take, hmin, harith]
    rw [hxx, h]
    simp
  refine ⟨?_, hle⟩
  have hxx : slice s (i + l1.length) e = (slice s i e).drop l1.length := by
    have harith : e - i - l1.length = e - (i + l1.length) := by omega
    simp only [slice, List.drop_take, List.drop_drop, harith]
  rw [hxx, h]
  simp

/-! ### Soundness and completeness of the backtracking matcher with respect
to the declarative acceptance predicate -/

theorem repRun_sound {s : List Char} {step : Nat → List Nat} {Q : List Char → Prop}
    (hs : ∀ i j, i ≤ s.length → j ∈ step i → i ≤ j ∧ j ≤ s.length ∧ Q (slice s i j)) :
    ∀ hi lo g i e, i ≤ s.length → e ∈ repRun step g lo hi i →
      i ≤ e ∧ e ≤ s.length ∧ RepAcc Q lo hi (slice s i e) := by
  intro hi
  induction hi with
  | zero =>
    intro lo g i e hi' he
    simp only [repRun] at he
    split at he
    · next hlo =>
      simp only [List.mem_singleton] at he
      subst he
      exact ⟨le_refl _, hi', by rw [slice_self]; exact RepAcc.zero _ _ hlo⟩
    · simp at he
  | succ n ih =>
    intro lo g i e hi' he
    simp only [repRun] at he
    have hmore : e ∈ (step i).flatMap (fun j => repRun step g (lo - 1) n j) →
        i ≤ e ∧ e ≤ s.length ∧ RepAcc Q lo (n + 1) (slice s i e) := by
      intro hm
      rw [List.mem_flatMap] at hm
      obtain ⟨j, hj, he'⟩ := hm
      obtain ⟨hij, hjl, hQ⟩ := hs i j hi' hj
      obtain ⟨hje, hel, hacc⟩ := ih (lo - 1) g j e hjl he'
      exact ⟨le_trans hij hje, hel,
        by rw [← slice_append hij hje]
           exact RepAcc.succ _ _ _ _ (Nat.succ_pos n) hQ (by simpa using hacc)⟩
    split at he
    · next hlo =>
      split at he
      · rw [List.mem_append] at he
        rcases he with he | he
        · exact hmore he
        · simp only [List.mem_singleton] at he
          subst he
          exact ⟨le_refl _, hi', by rw [slice_self]; exact RepAcc.zero _ _ hlo⟩
      · rw [List.mem_cons] at he
        rcases he with he | he
        · subst he
          exact ⟨le_refl _, hi', by rw [slice_self]; exact RepAcc.zero _ _ hlo⟩
        · exact hmore he
    · exact hmore he

theorem repRun_complete {s : List Char} {step : Nat → List Nat} {Q : List Char → Prop}
    (hc : ∀ i j, i ≤ j → j ≤ s.length → Q (slice s i j) → j ∈ step i) :
    ∀ (l : List Char) lo hi, RepAcc Q lo hi l → ∀ g i e, l = slice s i e → i ≤ e → e ≤ s.length →
      e ∈ repRun step g lo hi i := by
  intro l lo hi hacc
  induction hacc with
  | zero lo hi hlo =>
    intro g i e hl h1 h2
    have he : e = i := slice_eq_nil hl.symm h1 h2
    subst he
    subst hlo
    match hi with
    | 0 => simp [repRun]
    | n + 1 =>
      simp only [repRun, eq_self_iff_true, if_true]
      split
      · exact List.mem_append_right _ (List.mem_cons_self _ _)
      · exact List.mem_cons_self _ _
  | succ lo' hi' l1 l2 hhi hQ _ ih =>
    intro g i e hl h1 h2
    obtain ⟨n, rfl⟩ : ∃ n, hi' = n + 1 := ⟨hi' - 1, by omega⟩
    obtain ⟨hs1, hs2, hm⟩ := slice_split hl.symm h1 h2
    have hj : i + l1.length ∈ step i := hc i (i + l1.length) (by omega) (by omega) (by rw [hs1]; exact hQ)
    have he' : e ∈ repRun step g (lo' - 1) (n + 1 - 1) (i + l1.length) := ih g (i + l1.length) e hs2.symm hm h2
    simp only [repRun]
    have hmem : e ∈ (step i).flatMap fun j => repRun step g (lo' - 1) n j := by
      rw [List.mem_flatMap]
      exact ⟨i + l1.length, hj, by simpa using he'⟩
    split
    · split
      · exact List.mem_append_left _ hmem
      · exact List.mem_cons_of_mem _ hmem
    · exact hmem

theorem starRun_sound {s : List Char} {step : Nat → List Nat} {Q : List Char → Prop}
    (hs : ∀ i j, i ≤ s.length → j ∈ step i → i ≤ j ∧ j ≤ s.length ∧ Q (slice s i j)) :
    ∀ f g i e, i ≤ s.length → e ∈ starRun step g f i →
      i ≤ e ∧ e ≤ s.length ∧ StarAcc Q (slice s i e) := by
  intro f
  induction f with
  | zero =>
    intro g i e hi' he
    simp only [starRun, List.mem_singleton] at he
    subst he
    exact ⟨le_refl _, hi', by rw [slice_self]; exact StarAcc.nil⟩
  | succ n ih =>
    intro g i e hi' he
    simp only [starRun] at he
    have hmore : e ∈ (step i).flatMap (fun j => if i < j then starRun step g n j else []) →
        i ≤ e ∧ e ≤ s.length ∧ StarAcc Q (slice s i e) := by
      intro hm
      rw [List.mem_flatMap] at hm
      obtain ⟨j, hj, he'⟩ := hm
      split at he'
      · next hij =>
        obtain ⟨_, hjl, hQ⟩ := hs i j hi' hj
        obtain ⟨hje, hel, hacc⟩ := ih g j e hjl he'
        refine ⟨by omega, hel, ?_⟩
        rw [← slice_append (le_of_lt hij) hje]
        refine StarAcc.cons _ _ hQ ?_ hacc
        have := slice_len (le_of_lt hij) hjl
        intro hnil
        rw [hnil] at this
        simp at this
        omega
      · simp at he'
    split at he
    · rw [List.mem_append] at he
      rcases he with he | he
      · exact hmore he
      · simp only [List.mem_singleton] at he
        subst he
        exact ⟨le_refl _, hi', by rw [slice_self]; exact StarAcc.nil⟩
    · rw [List.mem_cons] at he
      rcases he with he | he
      · subst he
        exact ⟨le_refl _, hi', by rw [slice_self]; exact StarAcc.nil⟩
      · exact hmore he

theorem starRun_self_mem {step : Nat → List Nat} : ∀ f g i, i ∈ starRun step g f i := by
  intro f g i
  match f with
  | 0 => simp [starRun]
  | n + 1 =>
    simp only [starRun]
    split <;> simp

theorem starRun_complete {s : List Char} {step : Nat → List Nat} {Q : List Char → Prop}
    (hc : ∀ i j, i ≤ j → j ≤ s.length → Q (slice s i j) → j ∈ step i) :
    ∀ (l : List Char), StarAcc Q l → ∀ f g i e, l = slice s i e → i ≤ e → e ≤ s.length →
      e - i ≤ f → e ∈ starRun step g f i := by
  intro l hacc
  induction hacc with
  | nil =>
    intro f g i e hl h1 h2 _
    have he : e = i := slice_eq_nil hl.symm h1 h2
    rw [he]
    exact starRun_self_mem f g i
  | cons l1 l2 hQ hne _ ih =>
    intro f g i e hl h1 h2 hf
    obtain ⟨hs1, hs2, hm⟩ := slice_split hl.symm h1 h2
    have hl1 : 0 < l1.length := List.length_pos.mpr hne
    have hj : i + l1.length ∈ step i := hc i (i + l1.length) (by omega) (by omega) (by rw [hs1]; exact hQ)
    match f with
    | 0 => omega
    | n + 1 =>
      have he' : e ∈ starRun step g n (i + l1.length) :=
        ih n g (i + l1.length) e hs2.symm hm h2 (by omega)
      simp only [starRun]
      have hmem : e ∈ (step i).flatMap fun j => if i < j then starRun step g n j else [] := by
        rw [List.mem_flatMap]
        refine ⟨i + l1.length, hj, ?_⟩
        rw [if_pos (by omega)]
        exact he'
      split
      · exact List.mem_append_left _ hmem
      · exact List.mem_cons_of_mem _ hmem

theorem run_sound {s : List Char} :
    ∀ re i e, i ≤ s.length → e ∈ run s re i →
      i ≤ e ∧ e ≤ s.length ∧ Accepts re (slice s i e) := by
  intro re
  induction re with
  | eps =>
    intro i e hi he
    simp only [run, List.mem_singleton] at he
    subst he
    exact ⟨le_refl _, hi, by rw [slice_self]; rfl⟩
  | cls p =>
    intro i e hi he
    cases hcell : s[i]? with
    | none =>
      simp only [run, hcell] at he
      exact absurd he (by simp)
    | some c =>
      simp only [run, hcell] at he
      split at he
      · next hp =>
        simp only [List.mem_singleton] at he
        subst he
        obtain ⟨hlt, hgc⟩ := List.getElem?_eq_some_iff.mp hcell
        refine ⟨by omega, by omega, ⟨c, ?_, hp⟩⟩
        simp only [slice]
        rw [List.drop_eq_getElem_cons hlt]
        have h1 : i + 1 - i = 1 := by omega
        rw [h1, List.take_succ_cons, List.take_zero, hgc]
      · simp at he
  | seq a b iha ihb =>
    intro i e hi he
    simp only [run, List.mem_flatMap] at he
    obtain ⟨j, hj, he'⟩ := he
    obtain ⟨hij, hjl, ha⟩ := iha i j hi hj
    obtain ⟨hje, hel, hb⟩ := ihb j e hjl he'
    exact ⟨le_trans hij hje, hel,
      ⟨slice s i j, slice s j e, (slice_append hij hje).symm, ha, hb⟩⟩
  | rep a lo hi_ g iha =>
    intro i e hi he
    simp only [run] at he
    exact repRun_sound (fun i j h1 h2 => iha i j h1 h2) hi_ lo g i e hi he
  | star a g iha =>
    intro i e hi he
    simp only [run] at he
    exact starRun_sound (fun i j h1 h2 => iha i j h1 h2) (s.length + 1) g i e hi he
  | alt a b iha ihb =>
    intro i e hi he
    simp only [run, List.mem_append] at he
    rcases he with h | h
    · obtain ⟨h1, h2, h3⟩ := iha i e hi h
      exact ⟨h1, h2, Or.inl h3⟩
    · obtain ⟨h1, h2, h3⟩ := ihb i e hi h
      exact ⟨h1, h2, Or.inr h3⟩

theorem run_complete {s : List Char} :
    ∀ re i e, i ≤ e → e ≤ s.length → Accepts re (slice s i e) → e ∈ run s re i := by
  intro re
  induction re with
  | eps =>
    intro i e h1 h2 hacc
    have : e = i := slice_eq_nil hacc h1 h2
    subst this
    simp [run]
  | cls p =>
    intro i e h1 h2 hacc
    obtain ⟨c, hl, hp⟩ := hacc
    obtain ⟨hcell, _, hlt⟩ := slice_cons hl
    have he : e = i + 1 := by
      have hlen := slice_len h1 h2
      rw [hl] at hlen
      simp at hlen
      omega
    subst he
    simp only [run, hcell, if_pos hp]
    simp
  | seq a b iha ihb =>
    intro i e h1 h2 hacc
    obtain ⟨l1, l2, hl, ha, hb⟩ := hacc
    obtain ⟨hs1, hs2, hm⟩ := slice_split hl h1 h2
    simp only [run, List.mem_flatMap]
    exact ⟨i + l1.length, iha i (i + l1.length) (by omega) (by omega) (by rw [hs1]; exact ha),
      ihb (i + l1.length) e hm h2 (by rw [hs2]; exact hb)⟩
  | rep a lo hi g iha =>
    intro i e h1 h2 hacc
    simp only [run]
    exact repRun_complete (fun i j ha hb hq => iha i j ha hb hq) _ lo hi hacc g i e rfl h1 h2
  | star a g iha =>
    intro i e h1 h2 hacc
    simp only [run]
    exact starRun_complete (fun i j ha hb hq => iha i j ha hb hq) _ hacc (s.length + 1) g i e rfl h1 h2
      (by omega)
  | alt a b iha ihb =>
    intro i e h1 h2 hacc
    simp only [run, List.mem_append]
    rcases hacc with h | h
    · exact Or.inl (iha i e h1 h2 h)
    · exact Or.inr (ihb i e h1 h2 h)

theorem run_eq_nil {s : List Char} {re : RE} {i : Nat}
    (h : ∀ e, i ≤ e → e ≤ s.length → ¬ Accepts re (slice s i e)) (hi : i ≤ s.length) :
    run s re i = [] := by
  cases hr : run s re i with
  | nil => rfl
  | cons e tl =>
    have hmem : e ∈ run s re i := by rw [hr]; exact List.mem_cons_self _ _
    obtain ⟨h1, h2, h3⟩ := run_sound re i e hi hmem
    exact absurd h3 (h e h1 h2)

/-! ### Lemmas about the findall scan -/

theorem scanAux_ge_length {s : List Char} {re : RE} {f i : Nat} (h : s.length < i) :
    scanAux re s f i = [] := by
  cases f with
  | zero => rfl
  | succ n =>
    simp only [scanAux]
    rw [if_pos (by omega)]

theorem scanAux_sound {s : List Char} {re : RE} :
    ∀ f i, i ≤ s.length → ∀ pr ∈ scanAux re s f i,
      i ≤ pr.1 ∧ pr.1 ≤ s.length ∧ pr.2 ∈ run s re pr.1 := by
  intro f
  induction f with
  | zero =>
    intro i _ pr hpr
    simp [scanAux] at hpr
  | succ n ih =>
    intro i hi pr hpr
    simp only [scanAux] at hpr
    rw [if_neg (by omega : ¬ i > s.length)] at hpr
    cases hr : run s re i with
    | nil =>
      rw [hr] at hpr
      by_cases hend : i + 1 ≤ s.length
      · obtain ⟨ha, hb, hc⟩ := ih (i + 1) hend pr hpr
        exact ⟨by omega, hb, hc⟩
      · rw [scanAux_ge_length (by omega)] at hpr
        exact absurd hpr (by simp)
    | cons e tl =>
      rw [hr] at hpr
      rcases List.mem_cons.mp hpr with rfl | hpr'
      · exact ⟨le_refl _, hi, by rw [hr]; exact List.mem_cons_self _ _⟩
      · by_cases hend : max e (i + 1) ≤ s.length
        · obtain ⟨ha, hb, hc⟩ := ih _ hend pr hpr'
          exact ⟨by omega, hb, hc⟩
        · rw [scanAux_ge_length (by omega)] at hpr'
          exact absurd hpr' (by simp)

theorem findall_mem_accepts {s : List Char} {re : RE} {v : List Char}
    (h : v ∈ findall re s) :
    ∃ i e, i ≤ e ∧ e ≤ s.length ∧ Accepts re (slice s i e) ∧ v = slice s i e := by
  simp only [findall, findallPairs, List.mem_map] at h
  obtain ⟨pr, hpr, hv⟩ := h
  obtain ⟨_, hb, hc⟩ := scanAux_sound (s.length + 2) 0 (by omega) pr hpr
  obtain ⟨h1, h2, h3⟩ := run_sound re pr.1 pr.2 hb hc
  exact ⟨pr.1, pr.2, h1, h2, h3, hv.symm⟩

theorem scanAux_all_nil {s : List Char} {re : RE} :
    ∀ f j, (∀ i, j ≤ i → i ≤ s.length → run s re i = []) → scanAux re s f j = [] := by
  intro f
  induction f with
  | zero => intro j _; rfl
  | succ n ih =>
    intro j hj
    simp only [scanAux]
    split
    · rfl
    · next hle =>
      rw [hj j (le_refl _) (by omega)]
      exact ih (j + 1) fun i h1 h2 => hj i (by omega) h2

theorem scanAux_single {s : List Char} {re : RE} {p q : Nat}
    (hne : run s re p ≠ [])
    (hall : ∀ e ∈ run s re p, e = q)
    (hpq : p < q)
    (hbefore : ∀ i, i < p → run s re i = [])
    (hafter : ∀ i, q ≤ i → i ≤ s.length → run s re i = [])
    (hp : p ≤ s.length) :
    ∀ f j, j ≤ p → s.length + 2 ≤ f + j → scanAux re s f j = [(p, q)] := by
  intro f
  induction f with
  | zero =>
    intro j hj hf
    omega
  | succ n ih =>
    intro j hj hf
    by_cases hjp : j = p
    · subst hjp
      cases hr : run s re j with
      | nil => exact absurd hr hne
      | cons e tl =>
        have heq : e = q := hall e (by rw [hr]; exact List.mem_cons_self _ _)
        have hstep : scanAux re s (n + 1) j = (j, e) :: scanAux re s n (max e (j + 1)) := by
          simp only [scanAux]
          rw [if_neg (by omega : ¬ j > s.length), hr]
        rw [hstep]
        have hmax : max e (j + 1) = e := by omega
        rw [hmax, heq, scanAux_all_nil n q fun i h1 h2 => hafter i h1 h2]
    · have hlt : j < p := by omega
      have hstep : scanAux re s (n + 1) j = scanAux re s n (j + 1) := by
        simp only [scanAux]
        rw [if_neg (by omega : ¬ j > s.length), hbefore j hlt]
      rw [hstep]
      exact ih (j + 1) (by omega) (by omega)

theorem findall_single {s : List Char} {re : RE} {p q : Nat}
    (hne : run s re p ≠ [])
    (hall : ∀ e ∈ run s re p, e = q)
    (hpq : p < q)
    (hbefore : ∀ i, i < p → run s re i = [])
    (hafter : ∀ i, q ≤ i → i ≤ s.length → run s re i = [])
    (hp : p ≤ s.length) :
    findall re s = [slice s p q] := by
  have hx := scanAux_single hne hall hpq hbefore hafter hp (s.length + 2) 0 (by omega) (by omega)
  simp only [findall, findallPairs, hx, List.map_cons, List.map_nil]

theorem scanAux_nil_all {s : List Char} {re : RE} :
    ∀ f j, scanAux re s f j = [] → s.length + 2 ≤ f + j →
      ∀ i, j ≤ i → i ≤ s.length → run s re i = [] := by
  intro f
  induction f with
  | zero =>
    intro j _ hf i h1 h2
    omega
  | succ n ih =>
    intro j hnil hf i h1 h2
    simp only [scanAux] at hnil
    rw [if_neg (by omega : ¬ j > s.length)] at hnil
    cases hr : run s re j with
    | nil =>
      rw [hr] at hnil
      rcases Nat.eq_or_lt_of_le h1 with heq | hlt
      · rw [← heq]; exact hr
      · exact ih (j + 1) hnil (by omega) i (by omega) h2
    | cons e tl =>
      rw [hr] at hnil
      exact absurd hnil (by simp)

theorem findall_ne_nil {s : List Char} {re : RE} {i e : Nat}
    (h1 : i ≤ e) (h2 : e ≤ s.length) (hacc : Accepts re (slice s i e)) :
    findall re s ≠ [] := by
  intro hnil
  have hrun : e ∈ run s re i := run_complete re i e h1 h2 hacc
  have hpairs : findallPairs re s = [] := by
    have := congrArg List.length hnil
    simp only [findall, List.length_map, List.length_nil] at this
    exact List.eq_nil_of_length_eq_zero this
  have hzero : run s re i = [] :=
    scanAux_nil_all (s.length + 2) 0 hpairs (by omega) i (by omega) (by omega)
  rw [hzero] at hrun
  exact absurd hrun (by simp)

theorem scanAux_ordered {s : List Char} {re : RE} :
    ∀ f i, i ≤ s.length →
      (∀ pr ∈ scanAux re s f i, i ≤ pr.1 ∧ pr.1 ≤ pr.2) ∧
      List.Chain' (fun a b => a.2 ≤ b.1 ∧ a.1 < b.1) (scanAux re s f i) := by
  intro f
  induction f with
  | zero =>
    intro i _
    refine ⟨fun pr h => absurd h (by simp [scanAux]), ?_⟩
    simp [scanAux]
  | succ n ih =>
    intro i hi
    cases hr : run s re i with
    | nil =>
      have hstep : scanAux re s (n + 1) i = scanAux re s n (i + 1) := by
        simp only [scanAux]
        rw [if_neg (by omega : ¬ i > s.length), hr]
      rw [hstep]
      by_cases hend : i + 1 ≤ s.length
      · obtain ⟨hmem, hch⟩ := ih (i + 1) hend
        refine ⟨fun pr h => ⟨?_, (hmem pr h).2⟩, hch⟩
        have := (hmem pr h).1
        omega
      · rw [scanAux_ge_length (by omega)]
        exact ⟨fun pr h => absurd h (by simp), List.chain'_nil⟩
    | cons e tl =>
      have he : e ∈ run s re i := by rw [hr]; exact List.mem_cons_self _ _
      have h1e : i ≤ e := (run_sound re i e hi he).1
      have hstep : scanAux re s (n + 1) i = (i, e) :: scanAux re s n (max e (i + 1)) := by
        simp only [scanAux]
        rw [if_neg (by omega : ¬ i > s.length), hr]
      rw [hstep]
      by_cases hend : max e (i + 1) ≤ s.length
      · obtain ⟨hmem, hch⟩ := ih _ hend
        constructor
        · intro pr h
          rcases List.mem_cons.mp h with rfl | h'
          · exact ⟨le_refl _, h1e⟩
          · have := (hmem pr h').1
            exact ⟨by omega, (hmem pr h').2⟩
        · rw [List.chain'_cons']
          refine ⟨?_, hch⟩
          intro y hy
          have hy' : y ∈ scanAux re s n (max e (i + 1)) := List.mem_of_mem_head? hy
          have := (hmem y hy').1
          exact ⟨by omega, by omega⟩
      · have hgt : s.length < max e (i + 1) := by omega
        rw [scanAux_ge_length hgt]
        constructor
        · intro pr h
          rcases List.mem_cons.mp h with rfl | h'
          · exact ⟨le_refl _, h1e⟩
          · exact absurd h' (by simp)
        · simp

theorem findallPairs_ordered (re : RE) (s : List Char) : PairsOrdered (findallPairs re s) := by
  obtain ⟨hmem, hch⟩ := @scanAux_ordered s re (s.length + 2) 0 (by omega)
  exact ⟨fun pr h => (hmem pr h).2, hch⟩

theorem mapM_some_length {α β : Type} {f : α → Option β} :
    ∀ {l : List α} {r : List β}, l.mapM f = some r → r.length = l.length := by
  intro l
  induction l with
  | nil =>
    intro r h
    simp only [List.mapM_nil, Option.pure_def, Option.some.injEq] at h
    rw [← h]
    rfl
  | cons a t ih =>
    intro r h
    rw [List.mapM_cons] at h
    cases hfa : f a with
    | none => rw [hfa] at h; simp at h
    | some b =>
      rw [hfa] at h
      cases hmt : t.mapM f with
      | none => rw [hmt] at h; simp at h
      | some bs =>
        rw [hmt] at h
        simp at h
        rw [← h]
        simp [ih hmt]

/-! ### Characterization of the plaintext pattern -/

theorem repAcc_cls_bound {p : Char → Bool} :
    ∀ {lo hi : Nat} {l : List Char}, RepAcc (Accepts (.cls p)) lo hi l →
      l.length ≤ hi ∧ ∀ x ∈ l, p x = true := by
  intro lo hi l h
  induction h with
  | zero lo hi hlo => exact ⟨by simp, by simp⟩
  | succ lo hi l1 l2 hhi hQ ha ih =>
    obtain ⟨c, rfl, hp⟩ := hQ
    obtain ⟨ihl, ihp⟩ := ih
    refine ⟨by simp only [List.singleton_append, List.length_cons]; omega, ?_⟩
    intro x hx
    rcases List.mem_append.mp hx with hx | hx
    · rw [List.mem_singleton.mp hx]
      exact hp
    · exact ihp x hx

theorem repAcc_cls_of {p : Char → Bool} :
    ∀ (l : List Char) (hi : Nat), l.length ≤ hi → (∀ x ∈ l, p x = true) →
      RepAcc (Accepts (.cls p)) 0 hi l := by
  intro l
  induction l with
  | nil => intro hi _ _; exact RepAcc.zero _ _ rfl
  | cons c t ih =>
    intro hi hlen hall
    simp only [List.length_cons] at hlen
    have hh : (c :: t) = [c] ++ t := rfl
    rw [hh]
    refine RepAcc.succ _ _ _ _ (by omega) ⟨c, rfl, hall c (by simp)⟩ ?_
    have h0 : (0 : Nat) - 1 = 0 := rfl
    rw [h0]
    exact ih (hi - 1) (by omega) fun x hx => hall x (by simp [hx])

theorem starAcc_cls_chars {p : Char → Bool} :
    ∀ {l : List Char}, StarAcc (Accepts (.cls p)) l → ∀ x ∈ l, p x = true := by
  intro l h
  induction h with
  | nil => simp
  | cons l1 l2 hQ hne ha ih =>
    obtain ⟨c, rfl, hp⟩ := hQ
    intro x hx
    rcases List.mem_append.mp hx with hx | hx
    · rw [List.mem_singleton.mp hx]
      exact hp
    · exact ih x hx

theorem starAcc_cls_of {p : Char → Bool} :
    ∀ (l : List Char), (∀ x ∈ l, p x = true) → StarAcc (Accepts (.cls p)) l := by
  intro l
  induction l with
  | nil => intro _; exact StarAcc.nil
  | cons c t ih =>
    intro hall
    have hh : (c :: t) = [c] ++ t := rfl
    rw [hh]
    exact StarAcc.cons _ _ ⟨c, rfl, hall c (by simp)⟩ (by simp)
      (ih fun x hx => hall x (by simp [hx]))

theorem accepts_body_iff {l : List Char} :
    Accepts bodyRE l ↔ ∃ b, l = '{' :: b ++ ['}'] ∧ ∀ x ∈ b, x ≠ '\n' := by
  constructor
  · intro h
    obtain ⟨l1, l23, hl, h1, h23⟩ := h
    obtain ⟨l2, l3, hl23, h2, h3⟩ := h23
    obtain ⟨c1, rfl, hc1⟩ := h1
    obtain ⟨c3, rfl, hc3⟩ := h3
    have hc1' : c1 = '{' := by simpa using hc1
    have hc3' : c3 = '}' := by simpa using hc3
    subst hc1'
    subst hc3'
    subst hl23
    refine ⟨l2, by simp [hl], ?_⟩
    intro x hx
    have := starAcc_cls_chars h2 x hx
    simpa using this
  · rintro ⟨b, rfl, hb⟩
    refine ⟨['{'], b ++ ['}'], by simp, ⟨'{', rfl, by simp⟩, ?_⟩
    refine ⟨b, ['}'], rfl, ?_, ⟨'}', rfl, by simp⟩⟩
    exact starAcc_cls_of b fun x hx => by simpa using hb x hx

theorem accepts_plain_cons_iff {c : Char} {cs : List Char} {l : List Char} :
    Accepts (plainRE (c :: cs)) l ↔
      ∃ gp rest, l = c :: (gp ++ rest) ∧ gp.length ≤ 2 ∧ (∀ x ∈ gp, x ≠ '\n') ∧
        Accepts (plainRE cs) rest := by
  constructor
  · intro h
    obtain ⟨l1, l23, hl, h1, h23⟩ := h
    obtain ⟨l2, l3, hl23, h2, h3⟩ := h23
    obtain ⟨c1, rfl, hc1⟩ := h1
    have hc1' : c1 = c := by simpa using hc1
    subst hc1'
    obtain ⟨hlen, hchars⟩ := repAcc_cls_bound h2
    exact ⟨l2, l3, by simp [hl, hl23], hlen, fun x hx => by simpa using hchars x hx, h3⟩
  · rintro ⟨gp, rest, rfl, hlen, hchars, hrest⟩
    refine ⟨[c], gp ++ rest, by simp, ⟨c, rfl, by simp⟩, gp, rest, rfl, ?_, hrest⟩
    exact repAcc_cls_of gp 2 hlen fun x hx => by simpa using hchars x hx

theorem accepts_plain_shape :
    ∀ (cs : List Char) {l : List Char}, Accepts (plainRE cs) l →
      ∃ u b, l = u ++ '{' :: b ++ ['}'] ∧ ∀ x ∈ b, x ≠ '\n' := by
  intro cs
  induction cs with
  | nil =>
    intro l h
    obtain ⟨b, rfl, hb⟩ := accepts_body_iff.mp h
    exact ⟨[], b, rfl, hb⟩
  | cons c cs ih =>
    intro l h
    obtain ⟨gp, rest, rfl, _, _, hrest⟩ := accepts_plain_cons_iff.mp h
    obtain ⟨u, b, rfl, hb⟩ := ih hrest
    exact ⟨c :: (gp ++ u), b, by simp, hb⟩

theorem accepts_plain_head {c : Char} {cs l : List Char}
    (h : Accepts (plainRE (c :: cs)) l) : ∃ l', l = c :: l' := by
  obtain ⟨gp, rest, rfl, _, _, _⟩ := accepts_plain_cons_iff.mp h
  exact ⟨gp ++ rest, rfl⟩

theorem accepts_plain_chars :
    ∀ (cs : List Char) {l : List Char}, (∀ y ∈ cs, y ≠ '\n') →
      Accepts (plainRE cs) l → ∀ x ∈ l, x ≠ '\n' := by
  intro cs
  induction cs with
  | nil =>
    intro l _ h x hx
    obtain ⟨b, rfl, hb⟩ := accepts_body_iff.mp h
    rcases List.mem_cons.mp hx with rfl | hx'
    · decide
    · rcases List.mem_append.mp hx' with hx2 | hx2
      · exact hb x hx2
      · rw [List.mem_singleton.mp hx2]
        decide
  | cons c cs ih =>
    intro l hcs h x hx
    obtain ⟨gp, rest, rfl, _, hgp, hrest⟩ := accepts_plain_cons_iff.mp h
    rcases List.mem_cons.mp hx with rfl | hx'
    · exact hcs x (by simp)
    · rcases List.mem_append.mp hx' with hx2 | hx2
      · exact hgp x hx2
      · exact ih (fun y hy => hcs y (by simp [hy])) hrest x hx2

theorem accepts_plain_flag :
    ∀ (cs body : List Char), (∀ x ∈ body, x ≠ '\n') →
      Accepts (plainRE cs) (cs ++ '{' :: body ++ ['}']) := by
  intro cs
  induction cs with
  | nil =>
    intro body hb
    rw [List.nil_append]
    exact accepts_body_iff.mpr ⟨body, rfl, hb⟩
  | cons c cs ih =>
    intro body hb
    exact accepts_plain_cons_iff.mpr
      ⟨[], cs ++ '{' :: body ++ ['}'], by simp, by simp, by simp, ih body hb⟩

theorem accepts_plain_interleave :
    ∀ (cs : List Char) (gs : List (List Char)) (body : List Char),
      (∀ g ∈ gs, g.length ≤ 2 ∧ ∀ x ∈ g, x ≠ '\n') → (∀ x ∈ body, x ≠ '\n') →
      Accepts (plainRE cs) (interleave cs gs ++ '{' :: body ++ ['}']) := by
  intro cs
  induction cs with
  | nil =>
    intro gs body _ hb
    have hint : interleave [] gs = [] := rfl
    rw [hint, List.nil_append]
    exact accepts_body_iff.mpr ⟨body, rfl, hb⟩
  | cons c cs ih =>
    intro gs body hgs hb
    cases gs with
    | nil =>
      refine accepts_plain_cons_iff.mpr
        ⟨[], interleave cs [] ++ '{' :: body ++ ['}'], ?_, by simp, by simp,
          ih [] body (by simp) hb⟩
      have hint : interleave (c :: cs) [] = c :: interleave cs [] := rfl
      rw [hint]
      simp
    | cons g gs' =>
      refine accepts_plain_cons_iff.mpr
        ⟨g, interleave cs gs' ++ '{' :: body ++ ['}'], ?_, (hgs g (by simp)).1,
          (hgs g (by simp)).2, ih gs' body (fun g' hg' => hgs g' (by simp [hg'])) hb⟩
      have hint : interleave (c :: cs) (g :: gs') = c :: (g ++ interleave cs gs') := rfl
      rw [hint]
      simp

/-! ### Position bookkeeping in a text of the shape `pre ++ mid ++ post` -/

theorem get_append_left {u v : List Char} {i : Nat} (h : i < u.length) :
    (u ++ v)[i]? = u[i]? := by
  rw [List.getElem?_append, if_pos h]

theorem get_append_right {u v : List Char} {i : Nat} (h : u.length ≤ i) :
    (u ++ v)[i]? = v[i - u.length]? := by
  rw [List.getElem?_append, if_neg (by omega)]

theorem mem_of_get? {l : List Char} {i : Nat} {c : Char} (h : l[i]? = some c) : c ∈ l := by
  obtain ⟨hlt, hc⟩ := List.getElem?_eq_some_iff.mp h
  rw [← hc]
  exact List.getElem_mem hlt

theorem layout_get_pre {pre mid post : List Char} {i : Nat} (h : i < pre.length) :
    (pre ++ mid ++ post)[i]? = pre[i]? := by
  rw [get_append_left (by simp; omega), get_append_left h]

theorem layout_get_mid {pre mid post : List Char} {k : Nat} (h : k < mid.length) :
    (pre ++ mid ++ post)[pre.length + k]? = mid[k]? := by
  rw [get_append_left (by simp; omega), get_append_right (by omega)]
  congr 1
  omega

theorem layout_get_post {pre mid post : List Char} {i : Nat}
    (hle : pre.length + mid.length ≤ i) :
    (pre ++ mid ++ post)[i]? = post[i - pre.length - mid.length]? := by
  rw [List.append_assoc, get_append_right (by omega), get_append_right (by omega)]

theorem slice_middle (pre mid post : List Char) :
    slice (pre ++ mid ++ post) pre.length (pre.length + mid.length) = mid := by
  simp only [slice]
  rw [List.append_assoc, List.drop_left]
  have h : pre.length + mid.length - pre.length = mid.length := by omega
  rw [h, List.take_left]

theorem mkFlag_length (crib body : List Char) :
    (mkFlag crib body).length = crib.length + body.length + 2 := by
  simp only [mkFlag, List.length_append, List.length_cons, List.length_nil]
  omega

/-- In a flag text whose crib and body avoid `}`, the closing brace sits only
at the last index. -/
theorem flag_rbrace_idx {crib body : List Char}
    (hcrib : ∀ x ∈ crib, x ≠ '}') (hbody : ∀ x ∈ body, x ≠ '}') :
    ∀ j, (mkFlag crib body)[j]? = some '}' → j = crib.length + 1 + body.length := by
  intro j hj
  have hmk : mkFlag crib body = (crib ++ '{' :: body) ++ ['}'] := rfl
  rw [hmk] at hj
  have hlen2 : (crib ++ '{' :: body).length = crib.length + 1 + body.length := by
    simp
    omega
  by_cases hin : j < (crib ++ '{' :: body).length
  · rw [get_append_left hin] at hj
    by_cases h1 : j < crib.length
    · rw [get_append_left h1] at hj
      exact absurd rfl (hcrib '}' (mem_of_get? hj))
    · rw [get_append_right (by omega)] at hj
      cases hd : j - crib.length with
      | zero =>
        rw [hd] at hj
        simp only [List.getElem?_cons_zero, Option.some.injEq] at hj
        exact absurd hj (by decide)
      | succ m =>
        rw [hd] at hj
        simp only [List.getElem?_cons_succ] at hj
        exact absurd rfl (hbody '}' (mem_of_get? hj))
  · rw [get_append_right (by omega)] at hj
    cases hd : j - (crib ++ '{' :: body).length with
    | zero => omega
    | succ m =>
      rw [hd] at hj
      simp at hj

/-- Clean-occurrence exactness for the plaintext pattern: when the text is a
literal flag with inert surroundings (no other occurrence of the crib's first
character, no stray closing brace after the flag), `findall` reports exactly
the flag. -/
theorem plain_findall_exact
    (c0 : Char) (cs body pre post : List Char)
    (hcrib : ∀ x ∈ c0 :: cs, x ≠ '{' ∧ x ≠ '}' ∧ x ≠ '\n')
    (hbody : ∀ x ∈ body, x ≠ '}' ∧ x ≠ '\n')
    (hpre : ∀ x ∈ pre, x ≠ c0)
    (hpost : ∀ x ∈ post, x ≠ c0 ∧ x ≠ '}') :
    findall (plainRE (c0 :: cs)) (pre ++ mkFlag (c0 :: cs) body ++ post) =
      [mkFlag (c0 :: cs) body] := by
  obtain ⟨F, hF⟩ : ∃ F, mkFlag (c0 :: cs) body = F := ⟨_, rfl⟩
  rw [hF]
  have hFlen : F.length = cs.length + 1 + body.length + 2 := by
    rw [← hF, mkFlag_length]
    simp only [List.length_cons]
  have htlen : (pre ++ F ++ post).length = pre.length + F.length + post.length := by
    simp
    omega
  have hslice : slice (pre ++ F ++ post) pre.length (pre.length + F.length) = F :=
    slice_middle pre F post
  have haccF : Accepts (plainRE (c0 :: cs)) F := by
    rw [← hF]
    have hmk : mkFlag (c0 :: cs) body = (c0 :: cs) ++ '{' :: body ++ ['}'] := by
      simp [mkFlag]
    rw [hmk]
    exact accepts_plain_flag (c0 :: cs) body fun x hx => (hbody x hx).2
  have hqrun : pre.length + F.length ∈ run (pre ++ F ++ post) (plainRE (c0 :: cs)) pre.length := by
    apply run_complete
    · omega
    · omega
    · rw [hslice]
      exact haccF
  have hall : ∀ e ∈ run (pre ++ F ++ post) (plainRE (c0 :: cs)) pre.length,
      e = pre.length + F.length := by
    intro e he
    obtain ⟨h1, h2, h3⟩ := run_sound _ pre.length e (by omega) he
    obtain ⟨u, b, hshape, _⟩ := accepts_plain_shape (c0 :: cs) h3
    have hlen1 : (slice (pre ++ F ++ post) pre.length e).length = e - pre.length :=
      slice_len h1 h2
    have hlen2 : (slice (pre ++ F ++ post) pre.length e).length = u.length + b.length + 2 := by
      rw [hshape]
      simp
      omega
    have hend : (pre ++ F ++ post)[e - 1]? = some '}' := by
      have hidx : (slice (pre ++ F ++ post) pre.length e)[u.length + b.length + 1]? =
          some '}' := by
        rw [hshape]
        have hre : u ++ '{' :: b ++ ['}'] = (u ++ '{' :: b) ++ ['}'] := by simp
        rw [hre, get_append_right (by simp; omega)]
        have hz : u.length + b.length + 1 - (u ++ '{' :: b).length = 0 := by
          simp
          omega
        rw [hz]
        rfl
      rw [slice_getElem? _ pre.length e (u.length + b.length + 1), if_pos (by omega)] at hidx
      have harith : pre.length + (u.length + b.length + 1) = e - 1 := by omega
      rw [harith] at hidx
      exact hidx
    have hq1 : e - 1 = pre.length + F.length - 1 := by
      by_cases hmid : e - 1 < pre.length + F.length
      · have hk : e - 1 = pre.length + (e - 1 - pre.length) := by omega
        rw [hk, layout_get_mid (by omega)] at hend
        rw [← hF] at hend
        have := flag_rbrace_idx (fun x hx => (hcrib x hx).2.1)
          (fun x hx => (hbody x hx).1) (e - 1 - pre.length) hend
        simp only [List.length_cons] at this
        omega
      · rw [layout_get_post (by omega)] at hend
        exact absurd rfl ((hpost '}' (mem_of_get? hend)).2)
    omega
  have hbefore : ∀ i, i < pre.length → run (pre ++ F ++ post) (plainRE (c0 :: cs)) i = [] := by
    intro i hip
    apply run_eq_nil ?_ (by omega)
    intro e h1 h2 hacc
    obtain ⟨l2, hl2⟩ := accepts_plain_head hacc
    obtain ⟨hget, _, _⟩ := slice_cons hl2
    rw [layout_get_pre hip] at hget
    exact hpre c0 (mem_of_get? hget) rfl
  have hafter : ∀ i, pre.length + F.length ≤ i → i ≤ (pre ++ F ++ post).length →
      run (pre ++ F ++ post) (plainRE (c0 :: cs)) i = [] := by
    intro i hiq hil
    apply run_eq_nil ?_ hil
    intro e h1 h2 hacc
    obtain ⟨l2, hl2⟩ := accepts_plain_head hacc
    obtain ⟨hget, _, hlt⟩ := slice_cons hl2
    rw [layout_get_post (by omega)] at hget
    exact (hpost c0 (mem_of_get? hget)).1 rfl
  have hne : run (pre ++ F ++ post) (plainRE (c0 :: cs)) pre.length ≠ [] := by
    intro hnil
    rw [hnil] at hqrun
    exact absurd hqrun (by simp)
  have hres := findall_single hne hall (by omega) hbefore hafter (by omega)
  rw [hslice] at hres
  exact hres

/-- Window argument: while the matcher sits before or inside an oversized
inert gap, no suffix of the plaintext pattern can accept, because each crib
character must match within three positions and the gap characters match
neither a crib character nor `{`. -/
theorem plain_window_no_accept
    (t A B g : List Char) (p : Nat)
    (hgap : 3 ≤ g.length)
    (hAget : ∀ k, k < A.length → t[p + k]? = A[k]?)
    (hgget : ∀ k, k < g.length → t[p + A.length + k]? = g[k]?)
    (hbrace : ∀ x ∈ A ++ B, x ≠ '{')
    (hinert : ∀ x ∈ g, x ∉ A ++ B ∧ x ≠ '{') :
    ∀ (cs : List Char), (∀ x ∈ cs, x ∈ A ++ B) →
      ∀ q e, p ≤ q → q < p + A.length + g.length → e ≤ t.length →
        ¬ Accepts (plainRE cs) (slice t q e) := by
  intro cs
  induction cs with
  | nil =>
    intro hsub q e hq1 hq2 he hacc
    obtain ⟨b, hb, _⟩ := accepts_body_iff.mp hacc
    obtain ⟨hget, _, _⟩ := slice_cons hb
    by_cases hqA : q < p + A.length
    · have hk : q = p + (q - p) := by omega
      rw [hk, hAget (q - p) (by omega)] at hget
      exact hbrace '{' (List.mem_append_left _ (mem_of_get? hget)) rfl
    · have hk : q = p + A.length + (q - p - A.length) := by omega
      rw [hk, hgget (q - p - A.length) (by omega)] at hget
      exact (hinert '{' (mem_of_get? hget)).2 rfl
  | cons c cs' ih =>
    intro hsub q e hq1 hq2 he hacc
    obtain ⟨gp, rest, hl, hgplen, _, hrest⟩ := accepts_plain_cons_iff.mp hacc
    obtain ⟨hget, htail, hqe⟩ := slice_cons hl
    by_cases hqA : q < p + A.length
    · obtain ⟨_, hs2, hm⟩ := slice_split htail (by omega) he
      refine ih (fun x hx => hsub x (by simp [hx])) (q + 1 + gp.length) e (by omega)
        (by omega) he ?_
      rw [hs2]
      exact hrest
    · have hk : q = p + A.length + (q - p - A.length) := by omega
      rw [hk, hgget (q - p - A.length) (by omega)] at hget
      exact (hinert c (mem_of_get? hget)).1 (hsub c (by simp))

/-- Inserting three or more inert characters between two adjacent crib
characters (the flag otherwise literal) leaves the plaintext matcher with no
match starting at that occurrence. -/
theorem plain_no_match_big_gap
    (A B g body pre post : List Char)
    (hA : A ≠ []) (hgap : 3 ≤ g.length)
    (hbrace : ∀ x ∈ A ++ B, x ≠ '{')
    (hinert : ∀ x ∈ g, x ∉ A ++ B ∧ x ≠ '{') :
    run (pre ++ (A ++ g ++ (B ++ '{' :: body ++ ['}'])) ++ post) (plainRE (A ++ B))
      pre.length = [] := by
  apply run_eq_nil
  · intro e h1 h2 hacc
    refine plain_window_no_accept _ A B g pre.length hgap ?_ ?_ hbrace hinert (A ++ B)
      (fun x hx => hx) pre.length e (le_refl _) (by omega) h2 hacc
    · intro k hk
      rw [layout_get_mid (by simp; omega)]
      rw [show A ++ g ++ (B ++ '{' :: body ++ ['}']) = (A ++ g) ++ (B ++ '{' :: body ++ ['}'])
        from by simp]
      rw [get_append_left (by simp; omega), get_append_left hk]
    · intro k hk
      rw [show pre.length + A.length + k = pre.length + (A.length + k) from by omega]
      rw [layout_get_mid (by simp; omega)]
      rw [show A ++ g ++ (B ++ '{' :: body ++ ['}']) = (A ++ g) ++ (B ++ '{' :: body ++ ['}'])
        from by simp]
      rw [get_append_left (by simp; omega), get_append_right (by omega)]
      congr 1
      omega
  · simp

/-! ### The ROT13 transform and the crib stripping -/

theorem char_toNat_ofNat {n : Nat} (h : n < 55296) : (Char.ofNat n).toNat = n := by
  unfold Char.ofNat
  rw [dif_pos (Or.inl h)]
  simp [Char.ofNatAux, Char.toNat, UInt32.toNat, BitVec.toNat_ofNatLt]

theorem rot13_involution (c : Char) : rot13Char (rot13Char c) = c := by
  unfold rot13Char
  by_cases h1 : 97 ≤ c.toNat ∧ c.toNat ≤ 122
  · rw [if_pos h1]
    have hv : (Char.ofNat (97 + (c.toNat - 97 + 13) % 26)).toNat =
        97 + (c.toNat - 97 + 13) % 26 := char_toNat_ofNat (by omega)
    rw [if_pos (by rw [hv]; omega), hv]
    have harith : 97 + (97 + (c.toNat - 97 + 13) % 26 - 97 + 13) % 26 = c.toNat := by omega
    rw [harith, Char.ofNat_toNat]
  · rw [if_neg h1]
    by_cases h2 : 65 ≤ c.toNat ∧ c.toNat ≤ 90
    · rw [if_pos h2]
      have hv : (Char.ofNat (65 + (c.toNat - 65 + 13) % 26)).toNat =
          65 + (c.toNat - 65 + 13) % 26 := char_toNat_ofNat (by omega)
      rw [if_neg (by rw [hv]; omega), if_pos (by rw [hv]; omega), hv]
      have harith : 65 + (65 + (c.toNat - 65 + 13) % 26 - 65 + 13) % 26 = c.toNat := by omega
      rw [harith, Char.ofNat_toNat]
    · rw [if_neg h2, if_neg h1, if_neg h2]

theorem rot13_letter {c : Char} (h : asciiLetter c) : asciiLetter (rot13Char c) := by
  unfold rot13Char asciiLetter
  rcases h with h | h
  · rw [if_pos h, char_toNat_ofNat (by omega)]
    left
    omega
  · rw [if_neg (by omega), if_pos h, char_toNat_ofNat (by omega)]
    right
    omega

theorem letter_ne_special {c : Char} (h : asciiLetter c) :
    c ≠ '{' ∧ c ≠ '}' ∧ c ≠ '\n' := by
  unfold asciiLetter at h
  refine ⟨?_, ?_, ?_⟩ <;> intro heq <;> subst heq <;> revert h <;> decide

theorem rot13_ne_of_ne {c : Char} {d : Char}
    (hdletter : ¬ asciiLetter d) (h : c ≠ d) : rot13Char c ≠ d := by
  intro heq
  by_cases hl : asciiLetter c
  · exact absurd (heq ▸ rot13_letter hl) hdletter
  · unfold rot13Char at heq
    unfold asciiLetter at hl
    rw [if_neg (by omega), if_neg (by omega)] at heq
    exact h heq

theorem head_dropWhile {p : Char → Bool} :
    ∀ (l : List Char) {a : Char}, (l.dropWhile p).head? = some a → p a = false := by
  intro l
  induction l with
  | nil =>
    intro a h
    simp [List.dropWhile] at h
  | cons c t ih =>
    intro a h
    rw [List.dropWhile_cons] at h
    split at h
    · exact ih h
    · next hp =>
      simp only [List.head?_cons, Option.some.injEq] at h
      rw [← h]
      exact Bool.not_eq_true _ ▸ hp

theorem getLast?_cons_of_getLast? {c : Char} {t : List Char} {a : Char}
    (h : t.getLast? = some a) : (c :: t).getLast? = some a := by
  cases t with
  | nil => simp at h
  | cons b t' => rw [List.getLast?_cons_cons]; exact h

theorem getLast?_dropWhile {p : Char → Bool} :
    ∀ (l : List Char) {a : Char}, (l.dropWhile p).getLast? = some a → l.getLast? = some a := by
  intro l
  induction l with
  | nil =>
    intro a h
    simp [List.dropWhile] at h
  | cons c t ih =>
    intro a h
    rw [List.dropWhile_cons] at h
    split at h
    · exact getLast?_cons_of_getLast? (ih h)
    · exact h

theorem dropWhile_eq_self {p : Char → Bool} {l : List Char}
    (h : ∀ a, l.head? = some a → p a = false) : l.dropWhile p = l := by
  cases l with
  | nil => rfl
  | cons c t =>
    rw [List.dropWhile_cons, if_neg (by simp [h c rfl])]

theorem pyStrip_idem (cs : List Char) : pyStrip (pyStrip cs) = pyStrip cs := by
  unfold pyStrip
  have hstep1 : ((((cs.dropWhile fun c => c == '{').reverse.dropWhile
      fun c => c == '{').reverse).dropWhile fun c => c == '{') =
      ((cs.dropWhile fun c => c == '{').reverse.dropWhile fun c => c == '{').reverse := by
    apply dropWhile_eq_self
    intro a ha
    rw [List.head?_reverse] at ha
    have hlast := getLast?_dropWhile _ ha
    rw [List.getLast?_reverse] at hlast
    exact head_dropWhile (p := fun c => c == '{') cs hlast
  rw [hstep1, List.reverse_reverse, List.dropWhile_idempotent]

theorem mem_pyStrip {cs : List Char} {x : Char} (h : x ∈ pyStrip cs) : x ∈ cs := by
  unfold pyStrip at h
  rw [List.mem_reverse] at h
  have h1 := (List.dropWhile_sublist (l := (cs.dropWhile fun c => c == '{').reverse)
    (p := fun c => c == '{')).mem h
  rw [List.mem_reverse] at h1
  exact (List.dropWhile_sublist (l := cs) (p := fun c => c == '{')).mem h1

theorem pyStrip_cons_brace (cs : List Char) : pyStrip ('{' :: cs) = pyStrip cs := by
  unfold pyStrip
  rw [List.dropWhile_cons, if_pos (by simp)]

theorem pyStrip_append_brace (cs : List Char) : pyStrip (cs ++ ['{']) = pyStrip cs := by
  unfold pyStrip
  rw [List.dropWhile_append]
  split
  · next hempty =>
    rw [List.isEmpty_iff.mp hempty]
    have hx : List.dropWhile (fun c => c == '{') ['{'] = [] := by decide
    rw [hx]
  · rw [List.reverse_append]
    have hx : (['{'].reverse ++ (cs.dropWhile fun c => c == '{').reverse).dropWhile
        (fun c => c == '{') = ((cs.dropWhile fun c => c == '{').reverse).dropWhile
        (fun c => c == '{') := by
      rw [show (['{'] : List Char).reverse = ['{'] from rfl, List.singleton_append,
        List.dropWhile_cons, if_pos (by simp)]
    rw [hx]

theorem pyStrip_self {cs : List Char} {c d : Char}
    (hhead : cs.head? = some c) (hc : c ≠ '{')
    (hlast : cs.getLast? = some d) (hd : d ≠ '{') : pyStrip cs = cs := by
  unfold pyStrip
  have h1 : cs.dropWhile (fun x => x == '{') = cs := by
    apply dropWhile_eq_self
    intro a ha
    rw [hhead] at ha
    obtain rfl : c = a := by simpa using ha
    simp [hc]
  rw [h1]
  have h2 : cs.reverse.dropWhile (fun x => x == '{') = cs.reverse := by
    apply dropWhile_eq_self
    intro a ha
    rw [List.head?_reverse, hlast] at ha
    obtain rfl : d = a := by simpa using ha
    simp [hd]
  rw [h2, List.reverse_reverse]

theorem parse_strip_invariant (crib text : List Char) :
    parse_for_flag (pyStrip crib) text = parse_for_flag crib text := by
  unfold parse_for_flag plaintextFlags rot13Flags base64Flags base64Anchor
  rw [pyStrip_idem]

/-! ### The base64 pattern and alphabet -/

theorem rot13_map_involution (l : List Char) : (l.map rot13Char).map rot13Char = l := by
  rw [List.map_map]
  have h : ∀ a ∈ l, (rot13Char ∘ rot13Char) a = id a := fun a _ => rot13_involution a
  rw [List.map_congr_left h, List.map_id]

/-- C4 (code bug): the spec requires a base64-looking match that fails to
decode to be dropped while the remaining matches are still returned, but the
source calls `base64.b64decode(...).decode()` with no exception handling
inside the list comprehension, so one bad match aborts the whole call.  In
the text `RkxBR RkxBR3t0ZXN0fQ== ` the pattern finds the bogus match
`RkxBR ` (length 5 after whitespace is discarded, an invalid base64 length)
and the well-formed match `RkxBR3t0ZXN0fQ== `, which decodes to
`FLAG{test}`; instead of returning that surviving candidate the call raises,
modelled here by `parse_for_flag` returning `none`. -/
theorem c4_decode_failure_aborts :
    base64Flags "FLAG".data "RkxBR RkxBR3t0ZXN0fQ== ".data =
      ["RkxBR ".data, "RkxBR3t0ZXN0fQ== ".data] ∧
    fmtB64? "RkxBR ".data = none ∧
    fmtB64? "RkxBR3t0ZXN0fQ== ".data = some "base64 flag: FLAG{test}".data ∧
    parse_for_flag "FLAG".data "RkxBR RkxBR3t0ZXN0fQ== ".data = none := by
  refine ⟨by decide, by decide, by decide, by decide⟩

/-- C1 (corrected): plaintext round trip.  When the stripped crib consists of
regex-literal characters (so the source's `re.compile` succeeds and the
compiled pattern is the one modelled here — a crib metacharacter instead
changes the pattern or raises `re.error` at line 75), the text contains the
literal `crib{body}`, and — the correction — the crib's first letter occurs
neither in the preceding text nor in the following text (and the following
text has no `}`), the plaintext candidate list is exactly that substring, and
it appears (tagged) in any `parse_for_flag` result.  Without the
surrounding-text correction the claim is false: the tolerance gaps let a
match start at an earlier occurrence of the first crib letter and swallow
extra characters, so the candidate need not equal the literal substring (see
the counterexample). -/
theorem c1_plaintext_exact
    (crib body pre post : List Char)
    (hne : pyStrip crib ≠ [])
    (hlit : ∀ x ∈ pyStrip crib, pyRegexLiteral x = true)
    (hcrib : ∀ x ∈ pyStrip crib, x ≠ '{' ∧ x ≠ '}' ∧ x ≠ '\n')
    (hbody : ∀ x ∈ body, x ≠ '}' ∧ x ≠ '\n')
    (hpre : ∀ x ∈ pre, (pyStrip crib).head? ≠ some x)
    (hpost : ∀ x ∈ post, (pyStrip crib).head? ≠ some x ∧ x ≠ '}') :
    plaintextFlags crib (pre ++ mkFlag (pyStrip crib) body ++ post) =
      [mkFlag (pyStrip crib) body] ∧
    ∀ l, parse_for_flag crib (pre ++ mkFlag (pyStrip crib) body ++ post) = some l →
      fmtPlain (mkFlag (pyStrip crib) body) ∈ l := by
  obtain ⟨c0, cs, hcc⟩ : ∃ c0 cs, pyStrip crib = c0 :: cs := by
    cases h : pyStrip crib with
    | nil => exact absurd h hne
    | cons a t => exact ⟨a, t, rfl⟩
  have hfind : plaintextFlags crib (pre ++ mkFlag (pyStrip crib) body ++ post) =
      [mkFlag (pyStrip crib) body] := by
    show findall (plainRE (pyStrip crib)) _ = _
    rw [hcc]
    refine plain_findall_exact c0 cs body pre post (by rw [← hcc]; exact hcrib) hbody ?_ ?_
    · intro x hx heq
      exact hpre x hx (by rw [hcc, heq]; rfl)
    · intro x hx
      refine ⟨?_, (hpost x hx).2⟩
      intro heq
      exact (hpost x hx).1 (by rw [hcc, heq]; rfl)
  refine ⟨hfind, ?_⟩
  intro l hl
  simp only [parse_for_flag] at hl
  rw [hfind] at hl
  cases hb : (base64Flags crib (pre ++ mkFlag (pyStrip crib) body ++ post)).mapM fmtB64? with
  | none =>
    rw [hb] at hl
    exact absurd hl (by simp)
  | some bdec =>
    rw [hb] at hl
    have hl' := Option.some.inj hl
    rw [← hl']
    simp [fmtPlain]

/-- C1 witness: the spec's concrete scenario, crib `FLAG`, text
`junk FLAG{he11o_world} more junk`. -/
theorem c1_plaintext_exact_witness :
    plaintextFlags "FLAG".data
        ("junk ".data ++ mkFlag (pyStrip "FLAG".data) "he11o_world".data ++
          " more junk".data) =
      [mkFlag (pyStrip "FLAG".data) "he11o_world".data] :=
  (c1_plaintext_exact "FLAG".data "he11o_world".data "junk ".data " more junk".data
    (by decide) (by decide) (by decide) (by decide) (by decide) (by decide)).1

/-- C1 counterexample: crib `FLAG`, text `FFLAG{x}`.  The text contains the
literal substring `FLAG{x}` with nothing inserted, yet the plaintext
candidate list is `[FFLAG{x}]` — the gap after the first crib letter swallows
the extra `F` — so it does not contain the substring `FLAG{x}` the claim
promises. -/
theorem c1_counterexample :
    plaintextFlags "FLAG".data ('F' :: mkFlag (pyStrip "FLAG".data) ['x']) =
      ['F' :: mkFlag (pyStrip "FLAG".data) ['x']] ∧
    mkFlag (pyStrip "FLAG".data) ['x'] ∉
      plaintextFlags "FLAG".data ('F' :: mkFlag (pyStrip "FLAG".data) ['x']) := by
  refine ⟨by decide, by decide⟩

/-- C5 (corrected): ROT13 round trip.  When the ROT13-shifted stripped crib
consists of regex-literal characters (the rot13 pattern is the ROT13 of the
plaintext pattern string, so for a crib metacharacter — ROT13 fixes every
metacharacter — the source again compiles a different pattern or raises
`re.error`, a path outside this model), the text contains the ROT13 encoding
of `crib{body}`, and — the correction — the encoding's first letter occurs
neither in the preceding nor the following text (which also has no `}`), the
rot13 candidate list is exactly that encoded substring, its tagged decoding
is `rot13 flag: crib{body}`, and it appears in any `parse_for_flag` result.
Without the surrounding-text correction the claim fails exactly as for
plaintext: an earlier occurrence of the first encoded letter gets swallowed
into the match, whose decoding then is not `crib{body}` (see the
counterexample). -/
theorem c5_rot13_roundtrip
    (crib body pre post : List Char)
    (hne : pyStrip crib ≠ [])
    (hlit : ∀ x ∈ (pyStrip crib).map rot13Char, pyRegexLiteral x = true)
    (hcrib : ∀ x ∈ (pyStrip crib).map rot13Char, x ≠ '{' ∧ x ≠ '}' ∧ x ≠ '\n')
    (hbody : ∀ x ∈ body.map rot13Char, x ≠ '}' ∧ x ≠ '\n')
    (hpre : ∀ x ∈ pre, ((pyStrip crib).map rot13Char).head? ≠ some x)
    (hpost : ∀ x ∈ post, ((pyStrip crib).map rot13Char).head? ≠ some x ∧ x ≠ '}') :
    rot13Flags crib (pre ++ (mkFlag (pyStrip crib) body).map rot13Char ++ post) =
      [(mkFlag (pyStrip crib) body).map rot13Char] ∧
    fmtRot13 ((mkFlag (pyStrip crib) body).map rot13Char) =
      "rot13 flag: ".data ++ mkFlag (pyStrip crib) body ∧
    ∀ l, parse_for_flag crib (pre ++ (mkFlag (pyStrip crib) body).map rot13Char ++ post) =
        some l →
      fmtRot13 ((mkFlag (pyStrip crib) body).map rot13Char) ∈ l := by
  have hE : (mkFlag (pyStrip crib) body).map rot13Char =
      mkFlag ((pyStrip crib).map rot13Char) (body.map rot13Char) := by
    simp only [mkFlag, List.map_append, List.map_cons, List.map_nil,
      show rot13Char '{' = '{' from by decide, show rot13Char '}' = '}' from by decide]
  obtain ⟨c0, cs, hcc⟩ : ∃ c0 cs, (pyStrip crib).map rot13Char = c0 :: cs := by
    cases h : (pyStrip crib).map rot13Char with
    | nil => exact absurd (List.map_eq_nil_iff.mp h) hne
    | cons a t => exact ⟨a, t, rfl⟩
  have hfind : rot13Flags crib (pre ++ (mkFlag (pyStrip crib) body).map rot13Char ++ post) =
      [(mkFlag (pyStrip crib) body).map rot13Char] := by
    show findall (plainRE ((pyStrip crib).map rot13Char)) _ = _
    rw [hE, hcc]
    refine plain_findall_exact c0 cs (body.map rot13Char) pre post
      (by rw [← hcc]; exact hcrib) hbody ?_ ?_
    · intro x hx heq
      exact hpre x hx (by rw [hcc, heq]; rfl)
    · intro x hx
      refine ⟨?_, (hpost x hx).2⟩
      intro heq
      exact (hpost x hx).1 (by rw [hcc, heq]; rfl)
  have hdec : fmtRot13 ((mkFlag (pyStrip crib) body).map rot13Char) =
      "rot13 flag: ".data ++ mkFlag (pyStrip crib) body := by
    simp only [fmtRot13]
    rw [rot13_map_involution]
  refine ⟨hfind, hdec, ?_⟩
  intro l hl
  simp only [parse_for_flag] at hl
  rw [hfind] at hl
  cases hb : (base64Flags crib
      (pre ++ (mkFlag (pyStrip crib) body).map rot13Char ++ post)).mapM fmtB64? with
  | none =>
    rw [hb] at hl
    exact absurd hl (by simp)
  | some bdec =>
    rw [hb] at hl
    have hl' := Option.some.inj hl
    rw [← hl']
    simp

/-- C5 witness: the spec's concrete scenario, crib `FLAG`, text
`SYNT{grfg}` = ROT13 of `FLAG{test}`. -/
theorem c5_rot13_roundtrip_witness :
    rot13Flags "FLAG".data
        ([] ++ (mkFlag (pyStrip "FLAG".data) "test".data).map rot13Char ++ []) =
      [(mkFlag (pyStrip "FLAG".data) "test".data).map rot13Char] ∧
    fmtRot13 ((mkFlag (pyStrip "FLAG".data) "test".data).map rot13Char) =
      "rot13 flag: ".data ++ mkFlag (pyStrip "FLAG".data) "test".data :=
  ⟨(c5_rot13_roundtrip "FLAG".data "test".data [] []
      (by decide) (by decide) (by decide) (by decide) (by decide) (by decide)).1,
    (c5_rot13_roundtrip "FLAG".data "test".data [] []
      (by decide) (by decide) (by decide) (by decide) (by decide) (by decide)).2.1⟩

/-- C5 counterexample: crib `FLAG`, text `SSYNT{grfg}`.  The text contains
`SYNT{grfg}` = ROT13(`FLAG{test}`), but the single rot13 candidate is the
swallowed `SSYNT{grfg}`, so no candidate decodes to `FLAG{test}`. -/
theorem c5_counterexample :
    rot13Flags "FLAG".data
        ('S' :: (mkFlag (pyStrip "FLAG".data) "test".data).map rot13Char) =
      ['S' :: (mkFlag (pyStrip "FLAG".data) "test".data).map rot13Char] ∧
    mkFlag (pyStrip "FLAG".data) "test".data ∉
      (rot13Flags "FLAG".data
        ('S' :: (mkFlag (pyStrip "FLAG".data) "test".data).map rot13Char)).map
        (fun x => x.map rot13Char) := by
  refine ⟨by decide, by decide⟩

/-- C2 (corrected): gap tolerance.  For a stripped crib of regex-literal
characters (the faithful domain: a crib metacharacter makes the source
compile a different pattern or raise `re.error` at line 75, e.g. crib `((`),
inserting up to two non-newline characters between consecutive crib letters
still yields a plaintext match (the candidate list is nonempty), and no
match of the occurrence starts at it when three or more inert characters
separate two adjacent crib letters.  The spec's word "arbitrary" is false:
the gaps are matched by `.`, which in Python does not match a newline, so
inserting a single newline already kills the match (see the
counterexample). -/
theorem c2_gap_tolerance
    (crib body pre post : List Char) (gs : List (List Char)) (A B g : List Char)
    (hlit : ∀ x ∈ pyStrip crib, pyRegexLiteral x = true)
    (hgs : ∀ gp ∈ gs, gp.length ≤ 2 ∧ ∀ x ∈ gp, x ≠ '\n')
    (hbody : ∀ x ∈ body, x ≠ '\n')
    (hAB : pyStrip crib = A ++ B) (hA : A ≠ [])
    (hgap : 3 ≤ g.length)
    (hbrace : ∀ x ∈ A ++ B, x ≠ '{')
    (hinert : ∀ x ∈ g, x ∉ A ++ B ∧ x ≠ '{') :
    plaintextFlags crib
        (pre ++ (interleave (pyStrip crib) gs ++ '{' :: body ++ ['}']) ++ post) ≠ [] ∧
    run (pre ++ (A ++ g ++ (B ++ '{' :: body ++ ['}'])) ++ post) (plainRE (pyStrip crib))
      pre.length = [] := by
  constructor
  · show findall (plainRE (pyStrip crib)) _ ≠ []
    have hocc : Accepts (plainRE (pyStrip crib))
        (interleave (pyStrip crib) gs ++ '{' :: body ++ ['}']) :=
      accepts_plain_interleave (pyStrip crib) gs body hgs hbody
    refine findall_ne_nil (i := pre.length)
      (e := pre.length + (interleave (pyStrip crib) gs ++ '{' :: body ++ ['}']).length)
      (by omega) (by simp) ?_
    rw [slice_middle]
    exact hocc
  · rw [hAB]
    exact plain_no_match_big_gap A B g body pre post hA hgap hbrace hinert

/-- C2 witness: crib `FLAG`, gaps `x` and `yz` inside `FLAG{b}` still match;
the gap `123` of length 3 between `FL` and `AG` kills the match. -/
theorem c2_gap_tolerance_witness :
    plaintextFlags "FLAG".data
        ([] ++ (interleave (pyStrip "FLAG".data) [['x'], ['y', 'z']] ++
          '{' :: ['b'] ++ ['}']) ++ []) ≠ [] ∧
    run ([] ++ (['F', 'L'] ++ ['1', '2', '3'] ++
        (['A', 'G'] ++ '{' :: ['b'] ++ ['}'])) ++ [])
      (plainRE (pyStrip "FLAG".data)) (List.length ([] : List Char)) = [] :=
  c2_gap_tolerance "FLAG".data ['b'] [] [] [['x'], ['y', 'z']]
    ['F', 'L'] ['A', 'G'] ['1', '2', '3'] (by decide)
    (by decide) (by decide) (by decide) (by decide) (by decide) (by decide) (by decide)

/-- C2 counterexample: a single inserted character can already destroy the
match when it is a newline — `F`, newline, `LAG{x}` yields no plaintext
candidate, refuting "1 or 2 arbitrary characters". -/
theorem c2_counterexample :
    plaintextFlags "FLAG".data
      (interleave (pyStrip "FLAG".data) [['\n']] ++ '{' :: 'x' :: ['}']) = [] := by
  decide

/-- C6 (corrected): the patterns depend on the crib only through the
stripping, which removes leading `{` characters — but, correcting the claim,
`.strip("{")` also removes trailing `{` characters rather than keeping them
in the pattern (see the counterexample against the spec-modelled
leading-only variant). -/
theorem c6_strip_behavior :
    (∀ crib text : List Char, parse_for_flag (pyStrip crib) text =
      parse_for_flag crib text) ∧
    (∀ cs : List Char, pyStrip ('{' :: cs) = pyStrip cs) ∧
    (∀ cs : List Char, pyStrip (cs ++ ['{']) = pyStrip cs) :=
  ⟨parse_strip_invariant, pyStrip_cons_brace, pyStrip_append_brace⟩

/-- C6 counterexample: crib `FLAG{` with text `FLAG{x}`.  The source strips
the trailing `{` and finds the plaintext flag; the spec-described
leading-only stripping would keep the `{` in the pattern and find nothing. -/
theorem c6_counterexample :
    parse_for_flag ("FLAG".data ++ ['{']) (mkFlag "FLAG".data ['x']) =
      some [fmtPlain (mkFlag "FLAG".data ['x'])] ∧
    parse_for_flag_specStrip ("FLAG".data ++ ['{']) (mkFlag "FLAG".data ['x']) = some [] ∧
    pyStrip ("FLAG".data ++ ['{']) = "FLAG".data ∧
    lstripBrace ("FLAG".data ++ ['{']) = "FLAG".data ++ ['{'] := by
  refine ⟨by decide, by decide, by decide, by decide⟩

/-- C7: whenever `parse_for_flag` returns a list, it is the concatenation of
the tagged plaintext matches, the tagged rot13 matches and the decoded base64
matches, in that order, each group over the full `findall` result (same
length, so duplicates survive), and each scan's span list is in text order
without overlaps. -/
theorem c7_result_structure (crib text : List Char) :
    (∀ l, parse_for_flag crib text = some l →
      ∃ bdec, (base64Flags crib text).mapM fmtB64? = some bdec ∧
        bdec.length = (base64Flags crib text).length ∧
        l = (plaintextFlags crib text).map fmtPlain ++
          (rot13Flags crib text).map fmtRot13 ++ bdec) ∧
    PairsOrdered (findallPairs (plainRE (pyStrip crib)) text) ∧
    PairsOrdered (findallPairs (plainRE ((pyStrip crib).map rot13Char)) text) ∧
    PairsOrdered (findallPairs (b64RE (base64Anchor crib)) text) := by
  refine ⟨?_, findallPairs_ordered _ _, findallPairs_ordered _ _, findallPairs_ordered _ _⟩
  intro l hl
  simp only [parse_for_flag] at hl
  cases hb : (base64Flags crib text).mapM fmtB64? with
  | none =>
    rw [hb] at hl
    exact absurd hl (by simp)
  | some bdec =>
    rw [hb] at hl
    have hl' := Option.some.inj hl
    refine ⟨bdec, rfl, mapM_some_length hb, ?_⟩
    rw [← hl']
    have hif : ∀ (xs : List (List Char)) (f : List Char → List Char),
        (if xs.isEmpty then [] else xs.map f) = xs.map f := by
      intro xs f
      cases xs <;> simp
    rw [hif, hif]
    cases hbb : base64Flags crib text with
    | nil =>
      rw [hbb] at hb
      have hbd : bdec = [] := (Option.some.inj hb).symm
      simp [hbd]
    | cons x xs =>
      simp

/-- C7 witness: crib `FLAG`, text `FLAG{x} FLAG{x}` — the repeated identical
match appears twice. -/
theorem c7_result_structure_witness :
    ∃ bdec, (base64Flags "FLAG".data "FLAG{x} FLAG{x}".data).mapM fmtB64? = some bdec ∧
      bdec.length = (base64Flags "FLAG".data "FLAG{x} FLAG{x}".data).length ∧
      ["plaintext flag: FLAG{x}".data, "plaintext flag: FLAG{x}".data] =
        (plaintextFlags "FLAG".data "FLAG{x} FLAG{x}".data).map fmtPlain ++
        (rot13Flags "FLAG".data "FLAG{x} FLAG{x}".data).map fmtRot13 ++ bdec :=
  (c7_result_structure "FLAG".data "FLAG{x} FLAG{x}".data).1
    ["plaintext flag: FLAG{x}".data, "plaintext flag: FLAG{x}".data] (by decide)

/-- C8 (corrected): for a stripped crib of regex-literal characters, every
plaintext candidate, and the ROT13 decoding of every rot13 candidate, is a
brace-delimited flag shape: some prefix, `{`, a body, `}`.  The claim's
"for all cribs" is false of the program: a crib containing `|` puts an
alternation into the pattern, whose left branch has no brace pair, so the
source returns candidates without any braces (see the counterexample, which
hand-compiles the real pattern of crib `x|y`). -/
theorem c8_brace_shape (crib text : List Char)
    (hlit : ∀ x ∈ pyStrip crib, pyRegexLiteral x = true) :
    (∀ v ∈ plaintextFlags crib text, ∃ u b, v = u ++ '{' :: b ++ ['}']) ∧
    (∀ v ∈ rot13Flags crib text, ∃ u b, v.map rot13Char = u ++ '{' :: b ++ ['}']) := by
  constructor
  · intro v hv
    obtain ⟨i, e, h1, h2, hacc, hveq⟩ := findall_mem_accepts hv
    obtain ⟨u, b, hsh, _⟩ := accepts_plain_shape (pyStrip crib) hacc
    exact ⟨u, b, by rw [hveq, hsh]⟩
  · intro v hv
    obtain ⟨i, e, h1, h2, hacc, hveq⟩ := findall_mem_accepts hv
    obtain ⟨u, b, hsh, _⟩ := accepts_plain_shape ((pyStrip crib).map rot13Char) hacc
    refine ⟨u.map rot13Char, b.map rot13Char, ?_⟩
    rw [hveq, hsh]
    simp only [List.map_append, List.map_cons, List.map_nil,
      show rot13Char '{' = '{' from by decide, show rot13Char '}' = '}' from by decide]

/-- C8 witness: the candidate `FLAG{x}` has the brace shape. -/
theorem c8_brace_shape_witness :
    ∃ u b, ("FLAG{x}".data : List Char) = u ++ '{' :: b ++ ['}'] :=
  (c8_brace_shape "FLAG".data "FLAG{x}".data (by decide)).1 "FLAG{x}".data (by decide)

/-- C8 counterexample: for crib `x|y` the source's pattern string is
`x.{0,2}|.{0,2}y.{0,2}\{.*?\}`, an alternation whose left branch `x.{0,2}`
has no brace pair (`plainRE_xAltY` is its honest compilation, using the
alternation node the crib's `|` produces).  On the text `xab` the scan
returns the single candidate `xab`, which contains no `{` and no `}` — a
plaintext candidate without a brace-delimited body, refuting the claim for
arbitrary cribs.  (`plainRE`, which the claim theorem uses, literalizes the
`|` and finds nothing here, which is why the theorem needs its regex-literal
hypothesis.) -/
theorem c8_counterexample :
    findall plainRE_xAltY "xab".data = ["xab".data] ∧
    '{' ∉ ("xab".data : List Char) ∧ '}' ∉ ("xab".data : List Char) ∧
    plaintextFlags ("x".data ++ '|' :: "y".data) "xab".data = [] := by
  refine ⟨by decide, by decide, by decide, by decide⟩

/-- C9: determinism — the extraction (printing aside) is a pure function of
the crib and the text: equal inputs give equal candidate lists, with no
dependence on any other state. -/
theorem c9_deterministic (crib1 text1 crib2 text2 : List Char)
    (h1 : crib1 = crib2) (h2 : text1 = text2) :
    parse_for_flag crib1 text1 = parse_for_flag crib2 text2 := by
  rw [h1, h2]

/-- C9 witness. -/
theorem c9_deterministic_witness :
    parse_for_flag "FLAG".data "nothing here".data =
      parse_for_flag "FLAG".data "nothing here".data :=
  c9_deterministic "FLAG".data "nothing here".data "FLAG".data "nothing here".data rfl rfl

/-- C10: a newline never occurs inside a plaintext candidate when the crib
has none — the `.`-gaps and the non-greedy brace body both refuse `\n`. -/
theorem c10_no_newline (crib text : List Char) (hcrib : '\n' ∉ crib) :
    ∀ v ∈ plaintextFlags crib text, '\n' ∉ v := by
  intro v hv hnl
  obtain ⟨i, e, h1, h2, hacc, hveq⟩ := findall_mem_accepts hv
  have hcs : ∀ y ∈ pyStrip crib, y ≠ '\n' := by
    intro y hy heq
    exact hcrib (heq ▸ mem_pyStrip hy)
  exact accepts_plain_chars (pyStrip crib) hcs hacc '\n' (by rw [← hveq]; exact hnl) rfl

/-- C10 witness. -/
theorem c10_no_newline_witness : '\n' ∉ ("FLAG{x}".data : List Char) :=
  c10_no_newline "FLAG".data "FLAG{x}".data (by decide) "FLAG{x}".data (by decide)

end WebWizard
